import Mathlib

/-!
Verification development for the `fifth` cellular-automaton engine
(`src/plane.py`, `src/configuration.py`, `src/ruleset.py`).

The Python source is embedded shallowly: bit-packed row words become `Nat`
with explicit `2 ^ i` arithmetic, Python/numpy integer indexing becomes an
`Option`-valued lookup (`none` models a raised `IndexError`/`ValueError`),
and the per-generation update becomes explicit folds over lists.  Where a
definition depends on repository code that is absent from `src/`
(the `bitmanip` and `util` modules, the `Neighborhood` class, the never
assigned attributes `Plane.dimen` and `Ruleset.N`), the missing part is
modelled from the specification and the surrounding docstrings; each such
definition says so in its doc comment.
-/

namespace Fifth

/-- Value of bit `i` of the row word `w` (binary expansion, least significant
bit at index 0).  The module docstring of `src/plane.py` fixes this
orientation: a 1 at index `i` of the expansion is an on state at index `i`
of the row. -/
def bitAt (w i : Nat) : Nat := w / 2 ^ i % 2

/-- Modelled from the spec: `bitmanip.bits_of(number, width)` (the `bitmanip`
module is imported by `src/plane.py` but is not among the repository files).
Per the spec ("the last dimension is packed into the bits of a fixed-width
unsigned integer row word") and the module docstring it is the `width`-long
list of bits of `number`, bit `i` at index `i`. -/
def bitsOf (w width : Nat) : List Nat := (List.range width).map (bitAt w)

/-- Python (and numpy single-integer) sequence indexing: an index is valid
iff it lies in `[-len, len)`; a negative index counts from the end; any
other index raises `IndexError`, modelled as `none`. -/
def pyIndex {α : Type} (l : List α) (i : Int) : Option α :=
  if 0 ≤ i ∧ i < (l.length : Int) then l.get? i.toNat
  else if -(l.length : Int) ≤ i ∧ i < 0 then l.get? (i + l.length).toNat
  else none

/-- Last-dimension branch of `Plane.__getitem__` (src/plane.py lines 62-67)
for an integer index: `bm.bits_of(self.grid, self.shape[0])[idx]` on a
one-dimensional plane whose word is `g` and whose shape is `(w,)`. -/
def getBit1 (w g : Nat) (idx : Int) : Option Nat := pyIndex (bitsOf g w) idx

/-- `Plane.__getitem__` (src/plane.py lines 44-83) on a two-dimensional plane
of shape `(grid.length, w)` reached with a full coordinate tuple `(i, j)`:
the tuple branch indexes incrementally, the N-dimensional branch selects row
`i` of the reshaped numpy array (numpy integer-index bounds semantics), and
the last-dimension branch reads bit `j` of that row word. -/
def getCell2 (w : Nat) (grid : List Nat) (i j : Int) : Option Nat :=
  (pyIndex grid i).bind (fun row => getBit1 w row j)

/-- `numpy.prod` of a list of (possibly negative) dimensions. -/
def prodList (l : List Int) : Int := l.prod

/-- `Plane._flatten` (src/plane.py lines 85-97): mixed-radix positional
weighting `index += coordinates[i] * gridprod; gridprod *= dimen[i]`,
iterated from the last coordinate backwards.  The source reads the never
assigned attribute `self.dimen`; it is taken to be the plane's shape, the
only plausible referent.  No modulo is applied to any coordinate. -/
def flatten : List Int → List Int → Int
  | _ :: ds, c :: cs => c * prodList ds + flatten ds cs
  | _, _ => 0

/-- Storage of a `Plane` (src/plane.py lines 27-42): `None` for the empty
shape, a single row word for a one-dimensional shape, and a flat array of
`np.prod(shape[:-1])` row words otherwise. -/
inductive PGrid : Type where
  | undef : PGrid
  | word : Nat → PGrid
  | rows : List Nat → PGrid
deriving DecidableEq

/-- A bit plane: the shape tuple together with the packed storage. -/
structure Plane : Type where
  shape : List Int
  grid : PGrid
deriving DecidableEq

/-- `Plane.__init__` (src/plane.py lines 27-42).  The constructor performs no
shape validation of its own; `none` models the only possible failure, numpy's
`ValueError` when `np.zeros` receives the negative `np.prod(shape[:-1])`. -/
def planeInit (shape : List Int) : Option Plane :=
  if shape.length = 0 then some ⟨shape, PGrid.undef⟩
  else if shape.length = 1 then some ⟨shape, PGrid.word 0⟩
  else if prodList shape.dropLast < 0 then none
  else some ⟨shape, PGrid.rows (List.replicate (prodList shape.dropLast).toNat 0)⟩

/-- All row words held by a grid. -/
def gridWords : PGrid → List Nat
  | PGrid.undef => []
  | PGrid.word w => [w]
  | PGrid.rows l => l

theorem pyIndex_isSome {α : Type} (l : List α) (i : Int) :
    (pyIndex l i).isSome = true ↔ -(l.length : Int) ≤ i ∧ i < (l.length : Int) := by
  unfold pyIndex
  split_ifs with h1 h2
  · have hlt : i.toNat < l.length := by omega
    simp [List.get?_eq_getElem?, List.getElem?_eq_getElem hlt]
    omega
  · have hlt : (i + l.length).toNat < l.length := by omega
    simp [List.get?_eq_getElem?, List.getElem?_eq_getElem hlt]
    omega
  · simp
    omega

/-- C3: the claim that `get` reduces every coordinate modulo the axis size
fails: `Plane.__getitem__` applies no modulo, so a coordinate equal to the
axis size is an `IndexError` (`none`) rather than the wrapped cell. -/
theorem getCell_wrap_cex :
    getCell2 2 [0, 0] 2 0 = none ∧ getCell2 2 [0, 0] 0 0 = some 0 := by
  constructor <;> rfl

/-- C3 (amended): `Plane.__getitem__` does not wrap coordinates modulo the
axis sizes; a coordinate pair is accepted exactly when each coordinate lies
in `[-size, size)` (Python negative-index semantics), and anything outside
that interval raises `IndexError` (`none`). -/
theorem getCell_bounds_iff (w : Nat) (grid : List Nat) (i j : Int) :
    (getCell2 w grid i j).isSome = true ↔
      (-(grid.length : Int) ≤ i ∧ i < (grid.length : Int) ∧ -(w : Int) ≤ j ∧ j < (w : Int)) := by
  unfold getCell2
  cases hrow : pyIndex grid i with
  | none =>
      have hi : ¬ (-(grid.length : Int) ≤ i ∧ i < (grid.length : Int)) := by
        intro hc
        have := (pyIndex_isSome grid i).2 hc
        rw [hrow] at this
        simp at this
      simp only [Option.none_bind]
      constructor
      · intro h; simp at h
      · intro h; exact absurd ⟨h.1, h.2.1⟩ hi
  | some row =>
      have hi : -(grid.length : Int) ≤ i ∧ i < (grid.length : Int) := by
        have : (pyIndex grid i).isSome = true := by rw [hrow]; rfl
        exact (pyIndex_isSome grid i).1 this
      have hbits : ((bitsOf row w).length : Int) = (w : Int) := by
        simp [bitsOf]
      constructor
      · intro h
        have hsome : (getBit1 w row j).isSome = true := by
          simpa using h
        have := (pyIndex_isSome (bitsOf row w) j).1 hsome
        rw [hbits] at this
        exact ⟨hi.1, hi.2, this.1, this.2⟩
      · intro h
        have : (getBit1 w row j).isSome = true := by
          apply (pyIndex_isSome (bitsOf row w) j).2
          rw [hbits]
          exact ⟨h.2.2.1, h.2.2.2⟩
        simpa using this

/-- C4: the claim `flatten(coordinates + shape) = flatten(coordinates)` fails
on the code: `_flatten` applies no modulo, so on shape `(2, 2)` adding the
shape to the origin moves the flat index from 0 to 6. -/
theorem flatten_wrap_cex :
    flatten [2, 2] (List.zipWith (fun a b => a + b) [0, 0] [2, 2]) ≠
      flatten [2, 2] [0, 0] := by
  decide

/-- C4 (amended): `_flatten` is pure mixed-radix positional weighting with no
per-axis modulo; adding the full shape to the coordinates shifts the flat
index by the shape's own weighted value `flatten(shape, shape)` instead of
leaving it fixed, so the claimed toroidal-wraparound identity fails whenever
that weighted value is nonzero (in particular for every shape with positive
dimensions). -/
theorem flatten_add_shape (ds cs : List Int) (h : cs.length = ds.length) :
    flatten ds (List.zipWith (fun a b => a + b) cs ds) =
      flatten ds cs + flatten ds ds := by
  induction ds generalizing cs with
  | nil =>
      cases cs with
      | nil => rfl
      | cons c cs => simp at h
  | cons d ds ih =>
      cases cs with
      | nil => simp at h
      | cons c cs =>
          have hlen : cs.length = ds.length := by simpa using h
          simp only [List.zipWith_cons_cons, flatten, ih cs hlen]
          ring

/-- C4 witness: the amended identity evaluated on shape `(2, 3)` and
coordinates `(1, 2)`. -/
theorem flatten_add_shape_witness :
    ([1, 2] : List Int).length = ([2, 3] : List Int).length ∧
      flatten [2, 3] (List.zipWith (fun a b => a + b) [1, 2] [2, 3]) =
        flatten [2, 3] [1, 2] + flatten [2, 3] [2, 3] :=
  ⟨by decide, flatten_add_shape [2, 3] [1, 2] (by decide)⟩

/-- C6: the claim that a non-positive dimension fails with
`InvalidShapeError` is false: `Plane.__init__` validates nothing, so shape
`(0,)` and shape `(2, 0)` both construct successfully. -/
theorem planeInit_nonpositive_cex :
    planeInit [0] = some ⟨[0], PGrid.word 0⟩ ∧
      planeInit [2, 0] = some ⟨[2, 0], PGrid.rows [0, 0]⟩ := by
  constructor <;> rfl

/-- C6 (amended): a plane created with all-positive dimensions is zero-filled
(every bit of every row word is 0), but no `InvalidShapeError` exists:
construction succeeds for every shape except one whose leading-dimension
product `np.prod(shape[:-1])` is negative, which raises numpy's
`ValueError`. -/
theorem planeInit_zero_and_error_iff (shape : List Int) :
    ((∀ d ∈ shape, 0 < d) →
        ∃ p, planeInit shape = some p ∧ ∀ w ∈ gridWords p.grid, ∀ i, bitAt w i = 0) ∧
      ((planeInit shape).isSome = true ↔
        ¬(2 ≤ shape.length ∧ prodList shape.dropLast < 0)) := by
  constructor
  · intro hpos
    unfold planeInit
    split_ifs with h0 h1 hneg
    · exact ⟨_, rfl, by intro w hw; simp [gridWords] at hw⟩
    · refine ⟨_, rfl, ?_⟩
      intro w hw i
      simp [gridWords] at hw
      simp [hw, bitAt]
    · exfalso
      have : 0 < prodList shape.dropLast := by
        apply List.prod_pos
        intro a ha
        exact hpos a (List.dropLast_subset _ ha)
      omega
    · refine ⟨_, rfl, ?_⟩
      intro w hw i
      simp [gridWords] at hw
      simp [hw, bitAt]
  · unfold planeInit
    split_ifs with h0 h1 hneg
    · simp; omega
    · simp; omega
    · simp
      constructor
      · omega
      · exact hneg
    · simp
      intro h
      omega

/-- C6 witness: shape `(2, 3)` has positive dimensions and yields the
zero-filled two-row plane. -/
theorem planeInit_zero_witness :
    (∀ d ∈ ([2, 3] : List Int), 0 < d) ∧
      ∃ p, planeInit [2, 3] = some p ∧ ∀ w ∈ gridWords p.grid, ∀ i, bitAt w i = 0 :=
  ⟨by decide, (planeInit_zero_and_error_iff [2, 3]).1 (by decide)⟩

/-- Next state of a `Configuration` (src/configuration.py lines 16-27): a
constant bit or a callable of `(f_index, f_grid, indices, states)`; the
source dispatches on `callable(self.next_state)`, embedded as a tagged
variant as the spec's design notes direct. -/
inductive NextState : Type where
  | const : Nat → NextState
  | fn : (Nat → List Nat → List Nat → List Nat → Nat) → NextState

/-- A `Configuration` after construction (src/configuration.py lines 16-39):
the expected values and the flattened offsets, in matching order.  The
constructor flattens each coordinate delta with `util.flatten`, a module not
among the repository files; the flattened offsets are therefore carried
directly as integers. -/
structure Config : Type where
  states : List Nat
  offsets : List Int
  next_state : NextState

/-- Neighbor indices of `Configuration.passes` (src/configuration.py line
53): `(f_index + self.offsets) % grid.size`, Python modulo on a positive
modulus, so every index lands in `[0, gridSize)`. -/
def pIndices (offsets : List Int) (f_index gridSize : Nat) : List Nat :=
  offsets.map (fun o => (((f_index : Int) + o) % (gridSize : Int)).toNat)

/-- `Configuration.passes` (src/configuration.py lines 41-61): computes the
wrapped neighbor indices, asks the verification function whether the
configuration passes, and pairs that answer with the next state — invoking
the callable variant unconditionally, whatever the verification returned.
The grid argument is the flattened grid `grid.flat`, whose length is
`grid.size`. -/
def passes (c : Config) (f_index : Nat) (f_grid : List Nat)
    (vfunc : Nat → List Nat → List Nat → List Nat → Bool) : Bool × Nat :=
  let indices := pIndices c.offsets f_index f_grid.length
  let success := vfunc f_index f_grid indices c.states
  match c.next_state with
  | NextState.fn f => (success, f f_index f_grid indices c.states)
  | NextState.const s => (success, s)

/-- C10: when `next_state` is a callable, `passes` returns the verification
verdict as the first component and the callable's value as the second — the
callable is evaluated for every cell, failing ones included: the second
component equals the callable's result for an arbitrary verification
function, and in particular for the constantly-false one. -/
theorem passes_callable_always_invoked
    (states : List Nat) (offsets : List Int)
    (f : Nat → List Nat → List Nat → List Nat → Nat)
    (f_index : Nat) (f_grid : List Nat)
    (vfunc : Nat → List Nat → List Nat → List Nat → Bool) :
    passes ⟨states, offsets, NextState.fn f⟩ f_index f_grid vfunc =
        (vfunc f_index f_grid (pIndices offsets f_index f_grid.length) states,
          f f_index f_grid (pIndices offsets f_index f_grid.length) states) ∧
      (passes ⟨states, offsets, NextState.fn f⟩ f_index f_grid
          (fun _ _ _ _ => false)).2 =
        f f_index f_grid (pIndices offsets f_index f_grid.length) states :=
  ⟨rfl, rfl⟩

/-- `np.count_nonzero` over a list. -/
def countNonzero (l : List Nat) : Nat := (l.filter (fun x => x != 0)).length

/-- Numpy fancy indexing `f_grid[indices]`: the element of `f_grid` at each
listed index (all indices produced by `passes` are in range). -/
def selectIdx (f_grid indices : List Nat) : List Nat :=
  indices.map (fun i => f_grid.getD i 0)

/-- `Ruleset._tolerates` (src/ruleset.py lines 137-145): counts the nonzero
entries of `f_grid[indices] ^ states` and passes iff that count divided by
`len(f_grid)` — the length of the flattened grid, not the number of
offsets — is at least the tolerance. -/
def tolerates (f_grid indices states : List Nat) (tolerance : ℚ) : Bool :=
  let non_matches := countNonzero (List.zipWith (fun a b => a ^^^ b) (selectIdx f_grid indices) states)
  decide (tolerance ≤ (non_matches : ℚ) / (f_grid.length : ℚ))

/-- Naive mismatch count between the cells at the listed indices and the
expected values, walking the two lists together without any bitwise
vectorisation. -/
def naiveMismatches (f_grid : List Nat) : List Nat → List Nat → Nat
  | i :: is, s :: ss =>
      (if f_grid.getD i 0 ≠ s then 1 else 0) + naiveMismatches f_grid is ss
  | _, _ => 0

theorem countNonzero_cons (x : Nat) (l : List Nat) :
    countNonzero (x :: l) = (if x = 0 then 0 else 1) + countNonzero l := by
  by_cases h : x = 0
  · simp [countNonzero, List.filter_cons, h]
  · simp [countNonzero, List.filter_cons, h, Nat.add_comm]

theorem countNonzero_zipWith_xor (f_grid : List Nat) :
    ∀ indices states : List Nat,
      countNonzero (List.zipWith (fun a b => a ^^^ b) (selectIdx f_grid indices) states) =
        naiveMismatches f_grid indices states := by
  intro indices
  induction indices with
  | nil => intro states; rfl
  | cons i is ih =>
      intro states
      cases states with
      | nil => rfl
      | cons s ss =>
          have e1 : countNonzero (List.zipWith (fun a b => a ^^^ b)
                (selectIdx f_grid (i :: is)) (s :: ss)) =
              (if (f_grid.getD i 0 ^^^ s) = 0 then 0 else 1) +
                countNonzero (List.zipWith (fun a b => a ^^^ b) (selectIdx f_grid is) ss) :=
            countNonzero_cons _ _
          have e2 : naiveMismatches f_grid (i :: is) (s :: ss) =
              (if f_grid.getD i 0 ≠ s then 1 else 0) + naiveMismatches f_grid is ss := rfl
          rw [e1, ih ss, e2]
          by_cases h : f_grid.getD i 0 = s
          · have hx : f_grid.getD i 0 ^^^ s = 0 := by rw [h]; exact Nat.xor_self s
            simp [h, hx]
          · have hx : ¬(f_grid.getD i 0 ^^^ s = 0) := fun hc => h (Nat.xor_eq_zero.1 hc)
            simp [h, hx]

/-- C1: the claim divides the mismatch count by the number of offsets of the
Configuration; `_tolerates` divides by `len(f_grid)`.  On the 4-word grid
`[0,0,0,0]` with the single expected neighbor `1` at index 0 and tolerance
1/2 the claimed fraction is `1/1 ≥ 1/2`, a pass, yet the code computes
`1/4 < 1/2` and fails. -/
theorem tolerates_offsets_denominator_cex :
    tolerates [0, 0, 0, 0] [0] [1] (1 / 2) = false ∧
      (1 / 2 : ℚ) ≤ (naiveMismatches [0, 0, 0, 0] [0] [1] : ℚ) /
        (([0] : List Nat).length : ℚ) := by
  constructor
  · have h1 : countNonzero (List.zipWith (fun a b => a ^^^ b)
        (selectIdx [0, 0, 0, 0] [0]) [1]) = 1 := by decide
    simp only [tolerates, h1]
    norm_num
  · norm_num [naiveMismatches]

/-- C1 (amended): under `TOLERANCE` a cell passes iff the number of
mismatching neighbors divided by the length of the flattened grid
(`len(f_grid)`, not the number of offsets) is at least the supplied
tolerance; exact equality passes (the comparison is `>=`). -/
theorem tolerates_fraction_iff (f_grid indices states : List Nat) (tolerance : ℚ) :
    tolerates f_grid indices states tolerance = true ↔
      tolerance ≤ (naiveMismatches f_grid indices states : ℚ) / (f_grid.length : ℚ) := by
  unfold tolerates
  rw [countNonzero_zipWith_xor]
  exact decide_eq_true_iff

/-- C9 (amended): `apply_to` performs no tolerance validation (src defines no
`InvalidArgumentError`); the argument is used unchanged in `_tolerates`, so
an out-of-range tolerance silently skews every verification — every check
passes under any negative tolerance on a nonempty grid. -/
theorem tolerates_no_validation (tolerance : ℚ) (ht : tolerance < 0)
    (f_grid indices states : List Nat) (_hg : 0 < f_grid.length) :
    tolerates f_grid indices states tolerance = true := by
  unfold tolerates
  apply decide_eq_true
  apply le_of_lt
  apply lt_of_lt_of_le ht
  apply div_nonneg
  · exact Nat.cast_nonneg _
  · exact Nat.cast_nonneg _

/-- C9 witness: tolerance `-1` is outside `[0, 1]` and every check passes on
the one-word grid. -/
theorem tolerates_no_validation_witness :
    (-1 : ℚ) < 0 ∧ 0 < ([0] : List Nat).length ∧
      tolerates [0] [] [] (-1) = true :=
  ⟨by norm_num, by decide, tolerates_no_validation (-1) (by norm_num) [0] [] [] (by decide)⟩

/-- Iteration order of `itertools.product(([-1, 0, 1],) * n)` viewed as the
list of all n-tuples over `{-1, 0, 1}` (src/configuration.py line 75). -/
def variants : Nat → List (List Int)
  | 0 => [[]]
  | n + 1 => ([-1, 0, 1] : List Int).flatMap (fun d => (variants n).map (fun t => d :: t))

/-- `Configuration.moore` (src/configuration.py lines 63-80): every tuple of
`{-1, 0, 1}^n` kept when `any(current)` holds, i.e. when some component is
nonzero (Python truthiness of an int). -/
def moore (n : Nat) : List (List Int) :=
  (variants n).filter (fun l => l.any (fun x => x != 0))

/-- Offset written by one inner step of `Configuration.neumann`: the all-zero
list with component `i` set to `j`. -/
def stdOffset (n i : Nat) (j : Int) : List Int := (List.replicate n (0 : Int)).set i j

/-- `Configuration.neumann` (src/configuration.py lines 82-101): for each
axis `i` and each `j` in `[-1, 1]`, record the offset with `variant[i] = j`
and every other component 0, in insertion order.  The source stores these as
dictionary keys; the list below has no duplicates (proved in the claim
theorem), so it carries exactly the dictionary's keys. -/
def neumann (n : Nat) : List (List Int) :=
  (List.range n).flatMap (fun i => ([-1, 1] : List Int).map (fun j => stdOffset n i j))

theorem variants_succ (n : Nat) :
    variants (n + 1) =
      ((variants n).map (fun t => (-1 : Int) :: t)) ++
        (((variants n).map (fun t => (0 : Int) :: t)) ++
          (((variants n).map (fun t => (1 : Int) :: t)) ++ [])) := rfl

theorem variants_length (n : Nat) : (variants n).length = 3 ^ n := by
  induction n with
  | zero => rfl
  | succ n ih =>
      rw [variants_succ]
      simp [List.length_append, ih, pow_succ]
      ring

theorem filter_map_cons (p : List Int → Bool) (d : Int) (L : List (List Int)) :
    (L.map (fun t => d :: t)).filter p =
      (L.filter (fun t => p (d :: t))).map (fun t => d :: t) := by
  induction L with
  | nil => rfl
  | cons t L ih =>
      simp only [List.map_cons, List.filter_cons]
      by_cases h : p (d :: t) = true
      · simp [h, ih]
      · simp only [Bool.not_eq_true] at h
        simp [h, ih]

theorem length_filter_add_length_filter_not (p : List Int → Bool) (L : List (List Int)) :
    (L.filter p).length + (L.filter (fun l => !(p l))).length = L.length := by
  induction L with
  | nil => rfl
  | cons t L ih =>
      simp only [List.filter_cons]
      by_cases h : p t = true
      · simp only [h]
        simp only [List.length_cons, Bool.not_eq_true]
        simp [h]
        omega
      · simp only [Bool.not_eq_true] at h
        simp [h]
        omega

theorem variants_allzero_count (n : Nat) :
    ((variants n).filter (fun l => !(l.any (fun x => x != 0)))).length = 1 := by
  induction n with
  | zero => rfl
  | succ n ih =>
      rw [variants_succ]
      simp only [List.filter_append, List.length_append, filter_map_cons]
      have hne : ∀ d : Int, d ≠ 0 →
          ((variants n).filter
            (fun t => !((d :: t).any (fun x => x != 0)))).length = 0 := by
        intro d hd
        have : ∀ t ∈ variants n,
            (!((d :: t).any (fun x => x != 0))) = false := by
          intro t _
          simp [List.any_cons, hd]
        rw [List.filter_congr this]
        simp
      have h0 : ((variants n).filter
          (fun t => !(((0 : Int) :: t).any (fun x => x != 0)))).length =
          ((variants n).filter (fun l => !(l.any (fun x => x != 0)))).length := by
        apply congrArg
        apply List.filter_congr
        intro t _
        simp [List.any_cons]
      simp [List.length_map, hne (-1) (by norm_num), hne 1 (by norm_num), h0, ih]

theorem mem_variants (n : Nat) (l : List Int) :
    l ∈ variants n ↔ l.length = n ∧ ∀ x ∈ l, x = -1 ∨ x = 0 ∨ x = 1 := by
  induction n generalizing l with
  | zero =>
      simp only [variants]
      constructor
      · intro h
        simp at h
        subst h
        simp
      · intro ⟨h, _⟩
        simp [List.eq_nil_of_length_eq_zero h]
  | succ n ih =>
      rw [variants_succ]
      constructor
      · intro h
        simp only [List.mem_append, List.mem_map] at h
        rcases h with ⟨t, ht, rfl⟩ | ⟨t, ht, rfl⟩ | ⟨t, ht, rfl⟩ | hf
        · have := (ih t).1 ht
          refine ⟨by simp [this.1], ?_⟩
          intro x hx
          rcases List.mem_cons.1 hx with rfl | hx
          · left; rfl
          · exact this.2 x hx
        · have := (ih t).1 ht
          refine ⟨by simp [this.1], ?_⟩
          intro x hx
          rcases List.mem_cons.1 hx with rfl | hx
          · right; left; rfl
          · exact this.2 x hx
        · have := (ih t).1 ht
          refine ⟨by simp [this.1], ?_⟩
          intro x hx
          rcases List.mem_cons.1 hx with rfl | hx
          · right; right; rfl
          · exact this.2 x hx
        · simp at hf
      · intro ⟨hlen, hmem⟩
        cases l with
        | nil => simp at hlen
        | cons x t =>
            have hxt : t ∈ variants n := by
              apply (ih t).2
              refine ⟨by simpa using hlen, ?_⟩
              intro y hy
              exact hmem y (List.mem_cons_of_mem x hy)
            have hx := hmem x (List.mem_cons_self x t)
            simp only [List.mem_append, List.mem_map]
            rcases hx with rfl | rfl | rfl
            · exact Or.inl ⟨t, hxt, rfl⟩
            · exact Or.inr (Or.inl ⟨t, hxt, rfl⟩)
            · exact Or.inr (Or.inr (Or.inl ⟨t, hxt, rfl⟩))

theorem stdOffset_length (n i : Nat) (j : Int) : (stdOffset n i j).length = n := by
  simp [stdOffset]

theorem stdOffset_getD_self (n i : Nat) (j : Int) (hi : i < n) :
    (stdOffset n i j).getD i 0 = j := by
  have hl : i < (List.replicate n (0 : Int)).length := by simpa using hi
  rw [stdOffset, List.getD_eq_getElem _ _ (by simpa using hi)]
  simp

theorem stdOffset_getD_other (n i k : Nat) (j : Int) (hk : k < n) (hne : k ≠ i) :
    (stdOffset n i j).getD k 0 = 0 := by
  rw [stdOffset, List.getD_eq_getElem _ _ (by simpa using hk)]
  rw [List.getElem_set_ne (by omega)]
  simp

theorem stdOffset_inj (n i k : Nat) (j j' : Int) (hi : i < n) (hk : k < n)
    (hj : j ≠ 0) (h : stdOffset n i j = stdOffset n k j') : i = k ∧ j = j' := by
  by_cases hik : i = k
  · subst hik
    refine ⟨rfl, ?_⟩
    have hg := congrArg (fun l => l.getD i 0) h
    dsimp only at hg
    rw [stdOffset_getD_self n i j hi, stdOffset_getD_self n i j' hi] at hg
    exact hg
  · exfalso
    have hg := congrArg (fun l => l.getD i 0) h
    dsimp only at hg
    rw [stdOffset_getD_self n i j hi] at hg
    rw [stdOffset_getD_other n k i j' hi (fun hc => hik hc)] at hg
    exact hj hg

theorem neumann_nodup (n : Nat) : (neumann n).Nodup := by
  unfold neumann
  rw [List.nodup_flatMap]
  constructor
  · intro i hi
    have hin : i < n := List.mem_range.1 hi
    simp only [List.map_cons, List.map_nil]
    refine List.nodup_cons.2 ⟨?_, List.nodup_singleton _⟩
    intro hmem
    simp only [List.mem_singleton] at hmem
    have := (stdOffset_inj n i i (-1) 1 hin hin (by norm_num) hmem).2
    norm_num at this
  · have hp : (List.range n).Pairwise (· < ·) := List.pairwise_lt_range n
    refine hp.imp_of_mem ?_
    intro i k hi hk hik
    intro l hl hl2
    have hin : i < n := List.mem_range.1 hi
    have hkn : k < n := List.mem_range.1 hk
    simp only [List.map_cons, List.map_nil, List.mem_cons, List.mem_singleton,
      List.not_mem_nil, or_false] at hl hl2
    have hij : ∃ j : Int, j ≠ 0 ∧ l = stdOffset n i j := by
      rcases hl with rfl | rfl
      · exact ⟨-1, by norm_num, rfl⟩
      · exact ⟨1, by norm_num, rfl⟩
    have hkj : ∃ j : Int, l = stdOffset n k j := by
      rcases hl2 with rfl | rfl
      · exact ⟨-1, rfl⟩
      · exact ⟨1, rfl⟩
    obtain ⟨j, hj0, rfl⟩ := hij
    obtain ⟨j', heq⟩ := hkj
    have := (stdOffset_inj n i k j j' hin hkn hj0 heq).1
    omega

theorem neumann_length (n : Nat) : (neumann n).length = 2 * n := by
  unfold neumann
  rw [List.length_flatMap]
  have h : (List.range n).map
      (fun i => (([-1, 1] : List Int).map (fun j => stdOffset n i j)).length) =
      List.replicate n 2 := by
    apply List.eq_replicate_iff.2
    constructor
    · simp
    · intro b hb
      simp only [List.mem_map] at hb
      obtain ⟨i, _, rfl⟩ := hb
      rfl
  simp only [Function.comp_def]
  rw [h, List.sum_replicate]
  simp [Nat.mul_comm]

theorem zero_not_mem_moore (n : Nat) : List.replicate n (0 : Int) ∉ moore n := by
  intro h
  have := (List.mem_filter.1 h).2
  rw [List.any_eq_true] at this
  obtain ⟨x, hx, hx0⟩ := this
  have := List.eq_of_mem_replicate hx
  subst this
  simp at hx0

theorem zero_not_mem_neumann (n : Nat) : List.replicate n (0 : Int) ∉ neumann n := by
  intro h
  unfold neumann at h
  rw [List.mem_flatMap] at h
  obtain ⟨i, hi, hmem⟩ := h
  have hin : i < n := List.mem_range.1 hi
  simp only [List.map_cons, List.map_nil, List.mem_cons, List.mem_singleton,
    List.not_mem_nil, or_false] at hmem
  have hj : ∃ j : Int, j ≠ 0 ∧ List.replicate n (0 : Int) = stdOffset n i j := by
    rcases hmem with h1 | h1
    · exact ⟨-1, by norm_num, h1⟩
    · exact ⟨1, by norm_num, h1⟩
  obtain ⟨j, hj0, heq⟩ := hj
  have hg := congrArg (fun l => l.getD i 0) heq
  dsimp only at hg
  rw [stdOffset_getD_self n i j hin] at hg
  rw [List.getD_eq_getElem _ _ (by simpa using hin)] at hg
  simp at hg
  exact hj0 hg.symm

/-- C7: for every dimension count `n`, `moore` yields exactly `3 ^ n - 1`
offsets — precisely the nonzero tuples over `{-1, 0, 1}` — and `neumann`
yields exactly `2 * n` pairwise-distinct offsets; neither factory contains
the all-zero offset. -/
theorem moore_neumann_counts (n : Nat) :
    (moore n).length = 3 ^ n - 1 ∧
      (∀ l : List Int, l ∈ moore n ↔
        (l.length = n ∧ (∀ x ∈ l, x = -1 ∨ x = 0 ∨ x = 1) ∧
          l ≠ List.replicate n 0)) ∧
      (neumann n).length = 2 * n ∧
      (neumann n).Nodup ∧
      List.replicate n (0 : Int) ∉ moore n ∧
      List.replicate n (0 : Int) ∉ neumann n := by
  refine ⟨?_, ?_, neumann_length n, neumann_nodup n, zero_not_mem_moore n,
    zero_not_mem_neumann n⟩
  · have hsplit :=
      length_filter_add_length_filter_not (fun l => l.any (fun x => x != 0)) (variants n)
    have hz := variants_allzero_count n
    have hv := variants_length n
    have hpow : 1 ≤ 3 ^ n := Nat.one_le_pow n 3 (by norm_num)
    unfold moore
    omega
  · intro l
    unfold moore
    rw [List.mem_filter, mem_variants]
    constructor
    · intro ⟨⟨hlen, hball⟩, hany⟩
      refine ⟨hlen, hball, ?_⟩
      intro hrep
      rw [List.any_eq_true] at hany
      obtain ⟨x, hx, hx0⟩ := hany
      rw [hrep] at hx
      have := List.eq_of_mem_replicate hx
      subst this
      simp at hx0
    · intro ⟨hlen, hball, hne⟩
      refine ⟨⟨hlen, hball⟩, ?_⟩
      rw [List.any_eq_true]
      by_contra hc
      push_neg at hc
      apply hne
      apply List.eq_replicate_iff.2
      refine ⟨hlen, ?_⟩
      intro b hb
      have := hc b hb
      simpa using this

/-- Modelled from the spec: the per-configuration test applied to one bit of
one row during `Ruleset.apply_to` (src/ruleset.py lines 98-113).  The source
builds a `Neighborhood` from the flat index, the bit index and a per-column
total and hands it to `config.passes` together with the verification
function; the `Neighborhood` class is not among the repository files and the
totals block is unrunnable (`offset_totals` is never assigned), so the whole
test is carried as an opaque function of the prior-generation grid, the row
index and the bit index returning `(passed, next state)` — which subsumes
any totals computation, since the totals are themselves a function of those
three inputs. -/
def CTest : Type := List Nat → Nat → Nat → Bool × Nat

/-- Body of the `for bit_index in to_update` loop of `apply_to`
(src/ruleset.py lines 111-117): a passing bit is written into the fresh
output row, a failing bit is appended to the next round's update list. -/
def configStep (grid : List Nat) (flat_index : Nat) (c : CTest)
    (acc : List Nat × List Nat) (bit_index : Nat) : List Nat × List Nat :=
  let r := c grid flat_index bit_index
  if r.1 then (acc.1.set bit_index r.2, acc.2)
  else (acc.1, acc.2 ++ [bit_index])

/-- The `for config in self.configurations` loop of `apply_to`
(src/ruleset.py lines 86-120): each configuration is offered every bit that
is still unresolved; `to_update` is replaced by the bits that failed. -/
def applyConfigs (grid : List Nat) (flat_index : Nat) :
    List CTest → List Nat → List Nat → List Nat × List Nat
  | [], next_row, to_update => (next_row, to_update)
  | c :: rest, next_row, to_update =>
      let step := to_update.foldl (configStep grid flat_index c) (next_row, [])
      applyConfigs grid flat_index rest step.1 step.2

/-- The next-generation row for one flat index: the configuration chain run
on a fresh output row and a fully unresolved update set.  Modelled from the
spec where src is silent: `bitarray(self.N)` is the fresh output buffer with
`self.N` — an attribute never assigned in src — taken as the row width, and
the fresh buffer taken as zero-initialised; the prior row value (the loop
variable `value`, bound but never read) is not copied into it. -/
def rowNext (width : Nat) (configs : List CTest) (grid : List Nat)
    (flat_index : Nat) : List Nat :=
  (applyConfigs grid flat_index configs (List.replicate width 0) (List.range width)).1

/-- The `for flat_index, value in enumerate(plane.grid.flat)` loop of
`apply_to` (src/ruleset.py lines 82-123): rows are computed one after the
other, reading only `grid`, and appended to `next_grid`. -/
def buildNextGrid (width : Nat) (configs : List CTest) (grid : List Nat) :
    List (List Nat) :=
  (List.range grid.length).foldl
    (fun next_grid flat_index => next_grid ++ [rowNext width configs grid flat_index]) []

/-- The write-back loop of `apply_to` (src/ruleset.py lines 126-127):
`plane.grid.flat[i] = next_grid[i]` for every flat index, run only after
`next_grid` is complete.  The storage starts as the prior generation's row
words (`Sum.inl`) and each entry is overwritten with the corresponding
freshly computed row (`Sum.inr`; the source likewise stores the new row
objects into the object-typed numpy array). -/
def writeBack (old : List Nat) (next_grid : List (List Nat)) :
    List (Nat ⊕ List Nat) :=
  (List.range old.length).foldl
    (fun storage i => storage.set i (Sum.inr (next_grid.getD i [])))
    (old.map Sum.inl)

/-- `Ruleset.apply_to` (src/ruleset.py lines 57-127): compute every row of
the next generation from the prior grid, then replace the storage. -/
def applyTo (width : Nat) (configs : List CTest) (grid : List Nat) :
    List (Nat ⊕ List Nat) :=
  writeBack grid (buildNextGrid width configs grid)

/-- `apply_to` under the `TOLERATE` method (src/ruleset.py lines 71-72):
every configuration is tested with `_tolerates` closed over the caller's
tolerance argument, which `apply_to` never validates. -/
def applyToTolerate (tolerance : ℚ) (width : Nat) (cs : List Config)
    (grid : List Nat) : List (Nat ⊕ List Nat) :=
  applyTo width
    (cs.map (fun c => fun g fi _bi =>
      passes c fi g (fun _f fg ind st => tolerates fg ind st tolerance)))
    grid

theorem foldl_append_eq_map {α β : Type} (g : α → β) :
    ∀ (l : List α) (acc : List β),
      l.foldl (fun a x => a ++ [g x]) acc = acc ++ l.map g := by
  intro l
  induction l with
  | nil => intro acc; simp
  | cons x xs ih =>
      intro acc
      rw [List.foldl_cons, ih]
      simp

theorem buildNextGrid_eq (width : Nat) (configs : List CTest) (grid : List Nat) :
    buildNextGrid width configs grid =
      (List.range grid.length).map (rowNext width configs grid) := by
  unfold buildNextGrid
  rw [foldl_append_eq_map]
  rfl

theorem foldl_set_length {C : Type} (v : Nat → C) :
    ∀ (l : List Nat) (st : List C),
      (l.foldl (fun s i => s.set i (v i)) st).length = st.length := by
  intro l
  induction l with
  | nil => intro st; rfl
  | cons i is ih =>
      intro st
      rw [List.foldl_cons, ih]
      simp

theorem getD_set_lt {C : Type} (st : List C) (i j : Nat) (x d : C)
    (hj : j < st.length) :
    (st.set i x).getD j d = if i = j then x else st.getD j d := by
  rw [List.getD_eq_getElem _ _ (by simpa using hj)]
  rw [List.getElem_set]
  split_ifs with h
  · rfl
  · rw [List.getD_eq_getElem _ _ hj]

theorem foldl_set_getD {C : Type} (v : Nat → C) :
    ∀ (l : List Nat) (st : List C) (j : Nat) (d : C), j < st.length →
      (l.foldl (fun s i => s.set i (v i)) st).getD j d =
        if j ∈ l then v j else st.getD j d := by
  intro l
  induction l with
  | nil => intro st j d hj; simp
  | cons i is ih =>
      intro st j d hj
      rw [List.foldl_cons]
      have hj2 : j < (st.set i (v i)).length := by simpa using hj
      rw [ih (st.set i (v i)) j d hj2]
      rw [getD_set_lt st i j (v i) d hj]
      by_cases hmem : j ∈ is
      · simp [hmem]
      · by_cases hij : i = j
        · subst hij
          simp [hmem]
        · have : ¬ j ∈ i :: is := by
            intro hc
            rcases List.mem_cons.1 hc with rfl | hc2
            · exact hij rfl
            · exact hmem hc2
          simp [hmem, this, hij]

theorem writeBack_eq (old : List Nat) (next : List (List Nat))
    (h : next.length = old.length) :
    writeBack old next = next.map Sum.inr := by
  have hlen : (writeBack old next).length = old.length := by
    unfold writeBack
    rw [foldl_set_length]
    simp
  apply List.ext_getElem
  · rw [hlen]
    simp [h]
  · intro j h1 h2
    have hjo : j < old.length := by rw [hlen] at h1; exact h1
    have hjn : j < next.length := by omega
    have hd : (writeBack old next).getD j (Sum.inl 0) = Sum.inr (next.getD j []) := by
      unfold writeBack
      rw [foldl_set_getD _ _ _ j _ (by simpa using hjo)]
      simp [List.mem_range, hjo]
    rw [List.getD_eq_getElem _ _ h1] at hd
    rw [hd, List.getElem_map]
    congr 1
    rw [List.getD_eq_getElem _ _ hjn]

/-- C8: one generation update is two strictly separated phases — every output
row is a function of the prior generation's grid alone (`rowNext` reads only
`grid`, which no step of the row loop mutates), and the storage is then
replaced wholesale by the completed output buffer, one output row per prior
row. -/
theorem applyTo_prior_generation (width : Nat) (configs : List CTest)
    (grid : List Nat) :
    applyTo width configs grid =
        (List.range grid.length).map
          (fun flat_index => Sum.inr (rowNext width configs grid flat_index)) ∧
      (applyTo width configs grid).length = grid.length := by
  have hb := buildNextGrid_eq width configs grid
  constructor
  · unfold applyTo
    rw [hb, writeBack_eq _ _ (by simp), List.map_map]
    rfl
  · unfold applyTo
    rw [hb, writeBack_eq _ _ (by simp)]
    simp

/-- C2: evaluated at the one-row plane of shape `(1, 2)` whose row word is 2
(bits `[0, 1]`) with an empty configuration list, `apply_to` replaces the row
with the untouched fresh output buffer `[0, 0]` — the prior generation's
values are not retained for unresolved positions. -/
theorem apply_unresolved_zero_eval :
    applyTo 2 ([] : List CTest) [2] = [Sum.inr [0, 0]] ∧ bitsOf 2 2 = [0, 1] := by
  constructor <;> rfl

theorem foldl_configStep_fail (grid : List Nat) (fi : Nat) (c : CTest)
    (hc : ∀ bi, (c grid fi bi).1 = false) :
    ∀ (upd row pend : List Nat),
      upd.foldl (configStep grid fi c) (row, pend) = (row, pend ++ upd) := by
  intro upd
  induction upd with
  | nil => intro row pend; simp
  | cons b bs ih =>
      intro row pend
      rw [List.foldl_cons]
      have hstep : configStep grid fi c (row, pend) b = (row, pend ++ [b]) := by
        unfold configStep
        simp [hc b]
      rw [hstep, ih]
      simp

theorem applyConfigs_all_fail (grid : List Nat) (fi : Nat) :
    ∀ (configs : List CTest),
      (∀ c ∈ configs, ∀ bi, (c grid fi bi).1 = false) →
      ∀ row upd, applyConfigs grid fi configs row upd = (row, upd) := by
  intro configs
  induction configs with
  | nil => intro _ row upd; rfl
  | cons c rest ih =>
      intro h row upd
      have hc : ∀ bi, (c grid fi bi).1 = false :=
        fun bi => h c (List.mem_cons_self c rest) bi
      have hrest : ∀ c2 ∈ rest, ∀ bi, (c2 grid fi bi).1 = false :=
        fun c2 hc2 bi => h c2 (List.mem_cons_of_mem c hc2) bi
      show applyConfigs grid fi (c :: rest) row upd = (row, upd)
      unfold applyConfigs
      rw [foldl_configStep_fail grid fi c hc upd row []]
      simpa using ih hrest row upd

theorem applyTo_all_fail (width : Nat) (configs : List CTest) (grid : List Nat)
    (h : ∀ c ∈ configs, ∀ fi bi, (c grid fi bi).1 = false) :
    applyTo width configs grid =
      (List.range grid.length).map (fun _ => Sum.inr (List.replicate width 0)) := by
  have hr : ∀ fi, rowNext width configs grid fi = List.replicate width 0 := by
    intro fi
    unfold rowNext
    rw [applyConfigs_all_fail grid fi configs (fun c hc bi => h c hc fi bi) _ _]
  have := applyTo_prior_generation width configs grid
  rw [this.1]
  simp only [hr]

/-- C9: with the `TOLERANCE` method and the out-of-range tolerance 2,
`apply_to` does not fail — it processes the row normally (no tolerance check
exists in src, nor an `InvalidArgumentError`), and the plane's storage is
replaced by the computed generation rather than left unchanged. -/
theorem applyTolerate_out_of_range_cex :
    applyToTolerate 2 2 [⟨[1], [0], NextState.const 1⟩] [2] = [Sum.inr [0, 0]] ∧
      (Sum.inr ([0, 0] : List Nat) : Nat ⊕ List Nat) ≠ Sum.inl 2 := by
  constructor
  · have hs : tolerates [2] [0] [1] 2 = false := by
      have h1 : countNonzero (List.zipWith (fun a b => a ^^^ b)
          (selectIdx [2] [0]) [1]) = 1 := by decide
      simp only [tolerates, h1]
      norm_num
    have hpi : ∀ fi : Nat, pIndices [0] fi 1 = [0] := by
      intro fi
      simp [pIndices, Int.emod_one]
    unfold applyToTolerate
    rw [applyTo_all_fail]
    · rfl
    · intro t ht fi bi
      rw [List.map_cons, List.map_nil, List.mem_singleton] at ht
      subst ht
      calc (passes ⟨[1], [0], NextState.const 1⟩ fi [2]
              (fun _f fg ind st => tolerates fg ind st 2)).1
          = tolerates [2] (pIndices [0] fi 1) [1] 2 := rfl
        _ = tolerates [2] [0] [1] 2 := by rw [hpi fi]
        _ = false := hs
  · intro h
    exact Sum.noConfusion h

end Fifth
